import Mathlib

/-!
# Verification of the tindex postings / label-dictionary core

Shallow embedding of the Go sources of `tindex`:

* `src/unnamed/part_000` — the iterator algebra (`mergeIterator`,
  `intersectIterator`, `Merge`, `Intersect`, `ExpandIterator`,
  `plainSkiplistIterator`).
* `src/postings.go` — the postings store (`postingsStore.Append`,
  `postingsStore.postingsAppend`, `postingsStore.Close`,
  `boltSkiplistCursor.seek/next/append`).
* `src/bolt.go` — the label/series dictionary
  (`boltSeriesTx.ensureLabel/label/ensureSeries/series`).

Machine integers (`uint64`) are modelled as `Nat`; the code never relies on
wrap-around (IDs are monotone counters), so no `% 2^64` reduction is needed.
Go errors are modelled with explicit sum types; `io.EOF` and friends become
constructors.  Components of the repository whose defining file is absent
from the sources (page codec, `seriesKey.bytes`, `seperator`, `encodeUint64`)
are modelled from the spec and marked as such in their doc comments.
-/

namespace Tindex

/-! ## Iterators over strictly ascending ID sequences

A Go `Iterator` producing a strictly ascending sequence is modelled by the
list of IDs it has yet to produce.  `Next` pops the head (EOF on the empty
list).  `Seek(id)` positions at `id` or the closest following ID and returns
it, exactly as the `Iterator` interface contract in `src/unnamed/part_000`
specifies; on the list model that is: drop every remaining element `< id`,
then pop.  A child state inside a combinator — the pair `(v, e)` of the last
returned value and error together with the child iterator — is the list
`v :: rest` while `e = nil`, and `[]` once `e = io.EOF`.
-/

theorem length_dropWhile_le (p : Nat → Bool) (l : List Nat) :
    (l.dropWhile p).length ≤ l.length := by
  induction l with
  | nil => simp [List.dropWhile]
  | cons x xs ih =>
    by_cases h : p x
    · simp only [List.dropWhile, h]
      exact Nat.le_trans ih (Nat.le_succ _)
    · simp [List.dropWhile, h]

/-- `Next()` on the list model: pop the head, EOF (`none`) when exhausted. -/
def itNext (l : List Nat) : Option (Nat × List Nat) :=
  match l with
  | [] => none
  | x :: xs => some (x, xs)

/-- `Seek(id)` on the list model: advance to the first remaining element
`≥ id` and return it (EOF when none is left). -/
def itSeek (id : Nat) (l : List Nat) : Option (Nat × List Nat) :=
  itNext (l.dropWhile (fun x => decide (x < id)))

/-- `ExpandIterator` applied to `intersectIterator{i1, i2}`
(`src/unnamed/part_000`, lines 87–100 and 127–154), with the loop of
`ExpandIterator` fused with the internal loop of `intersectIterator.Next`.
The first argument is the full remaining stream of `i1` (head = pending
`v1`), the second that of `i2`; `[]` is the EOF state `e = io.EOF`.
The branches mirror the Go `Next`: a terminal side propagates; `v1 < v2`
seeks `i1` to `v2`; `v2 < v1` seeks `i2` to `v1`; equal heads emit the
value and advance both sides with `Next`. -/
def interLoop : List Nat → List Nat → List Nat
  | [], _ => []
  | _ :: _, [] => []
  | v1 :: r1, v2 :: r2 =>
    if v1 < v2 then
      interLoop (r1.dropWhile (fun x => decide (x < v2))) (v2 :: r2)
    else if v2 < v1 then
      interLoop (v1 :: r1) (r2.dropWhile (fun x => decide (x < v1)))
    else
      v1 :: interLoop r1 r2
  termination_by l1 l2 => l1.length + l2.length
  decreasing_by
  · have h := length_dropWhile_le (fun x => decide (x < v2)) r1
    simp only [List.length_cons]
    omega
  · have h := length_dropWhile_le (fun x => decide (x < v1)) r2
    simp only [List.length_cons]
    omega
  · simp only [List.length_cons]
    omega

/-- `ExpandIterator(Intersect(i1, i2))` for two iterators producing the ID
sequences `l1` and `l2`: `ExpandIterator` first calls `Seek(0)`, which
forwards `Seek(0)` to both children and reconciles with `Next` — on the
list model the children become `dropWhile (· < 0)` of their streams and the
reconciling loop is `interLoop`. -/
def expandIntersect (l1 l2 : List Nat) : List Nat :=
  interLoop (l1.dropWhile (fun x => decide (x < 0)))
    (l2.dropWhile (fun x => decide (x < 0)))

/-- `ExpandIterator` applied to `mergeIterator{i1, i2}`
(`src/unnamed/part_000`, lines 31–73 and 87–100), loops fused as in
`interLoop`.  Both sides EOF → EOF; one side EOF → drain the other; smaller
head emitted and advanced; equal heads emitted once, both advanced. -/
def mergeLoop : List Nat → List Nat → List Nat
  | [], [] => []
  | [], v2 :: r2 => v2 :: mergeLoop [] r2
  | v1 :: r1, [] => v1 :: mergeLoop r1 []
  | v1 :: r1, v2 :: r2 =>
    if v1 < v2 then v1 :: mergeLoop r1 (v2 :: r2)
    else if v2 < v1 then v2 :: mergeLoop (v1 :: r1) r2
    else v1 :: mergeLoop r1 r2
  termination_by l1 l2 => l1.length + l2.length
  decreasing_by all_goals (simp only [List.length_cons, List.length_nil]; omega)

/-- `ExpandIterator(Merge(i1, i2))` for two iterators producing `l1`, `l2`. -/
def expandMerge (l1 l2 : List Nat) : List Nat :=
  mergeLoop (l1.dropWhile (fun x => decide (x < 0)))
    (l2.dropWhile (fun x => decide (x < 0)))

theorem dropWhile_lt_zero (l : List Nat) :
    l.dropWhile (fun x => decide (x < 0)) = l := by
  cases l with
  | nil => rfl
  | cons x xs => simp [List.dropWhile]

theorem dropWhile_sublist (p : Nat → Bool) (l : List Nat) :
    List.Sublist (l.dropWhile p) l := by
  induction l with
  | nil => simp [List.dropWhile]
  | cons x xs ih =>
    by_cases h : p x
    · simp only [List.dropWhile, h]
      exact ih.trans (List.sublist_cons_self x xs)
    · simp [List.dropWhile, h]

/-- On a strictly ascending list, dropping the elements `< v` keeps exactly
the members `≥ v`. -/
theorem mem_dropWhile_lt {l : List Nat} (hl : l.Pairwise (· < ·)) (v x : Nat) :
    x ∈ l.dropWhile (fun y => decide (y < v)) ↔ x ∈ l ∧ v ≤ x := by
  induction l with
  | nil => simp [List.dropWhile]
  | cons y ys ih =>
    have hy : ∀ z ∈ ys, y < z := (List.pairwise_cons.mp hl).1
    have hys : ys.Pairwise (· < ·) := (List.pairwise_cons.mp hl).2
    by_cases h : y < v
    · simp only [List.dropWhile, decide_eq_true h, ih hys, List.mem_cons]
      constructor
      · rintro ⟨hx, hvx⟩
        exact ⟨Or.inr hx, hvx⟩
      · rintro ⟨hx | hx, hvx⟩
        · omega
        · exact ⟨hx, hvx⟩
    · have hvy : v ≤ y := Nat.le_of_not_lt h
      simp only [List.dropWhile, decide_eq_false h]
      constructor
      · intro hx
        refine ⟨hx, ?_⟩
        rcases List.mem_cons.mp hx with rfl | hx
        · exact hvy
        · exact Nat.le_trans hvy (Nat.le_of_lt (hy _ hx))
      · exact fun hx => hx.1

theorem interLoop_sound : ∀ (n : Nat) (l1 l2 : List Nat),
    l1.length + l2.length ≤ n →
    l1.Pairwise (· < ·) → l2.Pairwise (· < ·) →
    (interLoop l1 l2).Pairwise (· < ·) ∧
      ∀ x, x ∈ interLoop l1 l2 ↔ x ∈ l1 ∧ x ∈ l2 := by
  intro n
  induction n with
  | zero =>
    intro l1 l2 hn _ _
    have h1 : l1 = [] := List.length_eq_zero.mp (by omega)
    subst h1
    simp [interLoop]
  | succ n ih =>
    intro l1 l2 hn h1 h2
    match l1, l2 with
    | [], l2 => simp [interLoop]
    | v1 :: r1, [] => simp [interLoop]
    | v1 :: r1, v2 :: r2 =>
      have hr1 : r1.Pairwise (· < ·) := (List.pairwise_cons.mp h1).2
      have hr2 : r2.Pairwise (· < ·) := (List.pairwise_cons.mp h2).2
      have hv1 : ∀ z ∈ r1, v1 < z := (List.pairwise_cons.mp h1).1
      have hv2 : ∀ z ∈ r2, v2 < z := (List.pairwise_cons.mp h2).1
      by_cases hlt : v1 < v2
      · have hdw := length_dropWhile_le (fun x => decide (x < v2)) r1
        have hrec := ih (r1.dropWhile (fun x => decide (x < v2))) (v2 :: r2)
          (by simp only [List.length_cons] at hn ⊢; omega)
          (hr1.sublist (dropWhile_sublist _ r1)) h2
        rw [interLoop]
        simp only [hlt, if_true]
        refine ⟨hrec.1, fun x => ?_⟩
        rw [hrec.2 x, mem_dropWhile_lt hr1]
        constructor
        · rintro ⟨⟨hx1, _⟩, hx2⟩
          exact ⟨List.mem_cons_of_mem _ hx1, hx2⟩
        · rintro ⟨hx1, hx2⟩
          have hv2x : v2 ≤ x := by
            rcases List.mem_cons.mp hx2 with rfl | hx
            · exact Nat.le_refl _
            · exact Nat.le_of_lt (hv2 _ hx)
          rcases List.mem_cons.mp hx1 with rfl | hx
          · omega
          · exact ⟨⟨hx, hv2x⟩, hx2⟩
      · by_cases hgt : v2 < v1
        · have hdw := length_dropWhile_le (fun x => decide (x < v1)) r2
          have hrec := ih (v1 :: r1) (r2.dropWhile (fun x => decide (x < v1)))
            (by simp only [List.length_cons] at hn ⊢; omega)
            h1 (hr2.sublist (dropWhile_sublist _ r2))
          rw [interLoop]
          simp only [hlt, hgt, if_true, if_false]
          refine ⟨hrec.1, fun x => ?_⟩
          rw [hrec.2 x, mem_dropWhile_lt hr2]
          constructor
          · rintro ⟨hx1, hx2, _⟩
            exact ⟨hx1, List.mem_cons_of_mem _ hx2⟩
          · rintro ⟨hx1, hx2⟩
            have hv1x : v1 ≤ x := by
              rcases List.mem_cons.mp hx1 with rfl | hx
              · exact Nat.le_refl _
              · exact Nat.le_of_lt (hv1 _ hx)
            rcases List.mem_cons.mp hx2 with rfl | hx
            · omega
            · exact ⟨hx1, hx, hv1x⟩
        · have heq : v1 = v2 := by omega
          subst heq
          have hrec := ih r1 r2
            (by simp only [List.length_cons] at hn ⊢; omega) hr1 hr2
          rw [interLoop]
          simp only [hlt, hgt, if_false]
          constructor
          · refine List.pairwise_cons.mpr ⟨fun y hy => ?_, hrec.1⟩
            exact hv1 _ ((hrec.2 y).mp hy).1
          · intro x
            simp only [List.mem_cons, hrec.2 x]
            constructor
            · rintro (rfl | ⟨hx1, hx2⟩)
              · exact ⟨Or.inl rfl, Or.inl rfl⟩
              · exact ⟨Or.inr hx1, Or.inr hx2⟩
            · rintro ⟨rfl | hx1, hx2⟩
              · exact Or.inl rfl
              · rcases hx2 with rfl | hx2
                · exact Or.inl rfl
                · exact Or.inr ⟨hx1, hx2⟩

/-- C3: for every two iterators producing strictly ascending ID sequences
`l1` and `l2`, `ExpandIterator(Intersect(i1, i2))` — the documented leapfrog
(smaller head seeks to the larger head, equal heads emit the value and both
sides advance with `Next`) — returns the sorted intersection of the two
underlying ID sets: the output is strictly ascending and contains exactly
the IDs found in both inputs. -/
theorem intersect_expand_is_intersection (l1 l2 : List Nat)
    (h1 : l1.Pairwise (· < ·)) (h2 : l2.Pairwise (· < ·)) :
    (expandIntersect l1 l2).Pairwise (· < ·) ∧
      ∀ x, x ∈ expandIntersect l1 l2 ↔ x ∈ l1 ∧ x ∈ l2 := by
  unfold expandIntersect
  rw [dropWhile_lt_zero, dropWhile_lt_zero]
  exact interLoop_sound (l1.length + l2.length) l1 l2 (Nat.le_refl _) h1 h2

/-- Witness for C3 at the spec's concrete scenario 2:
`k1 = [1,2,3,5,8,13]`, `k2 = [2,3,5,7,11,13]`. -/
theorem intersect_expand_is_intersection_witness :
    ([1, 2, 3, 5, 8, 13] : List Nat).Pairwise (· < ·) ∧
    ([2, 3, 5, 7, 11, 13] : List Nat).Pairwise (· < ·) ∧
    ((expandIntersect [1, 2, 3, 5, 8, 13] [2, 3, 5, 7, 11, 13]).Pairwise (· < ·) ∧
      ∀ x, x ∈ expandIntersect [1, 2, 3, 5, 8, 13] [2, 3, 5, 7, 11, 13] ↔
        x ∈ ([1, 2, 3, 5, 8, 13] : List Nat) ∧ x ∈ ([2, 3, 5, 7, 11, 13] : List Nat)) :=
  ⟨by decide, by decide,
    intersect_expand_is_intersection _ _ (by decide) (by decide)⟩

theorem mergeLoop_sound : ∀ (n : Nat) (l1 l2 : List Nat),
    l1.length + l2.length ≤ n →
    l1.Pairwise (· < ·) → l2.Pairwise (· < ·) →
    (mergeLoop l1 l2).Pairwise (· < ·) ∧
      ∀ x, x ∈ mergeLoop l1 l2 ↔ x ∈ l1 ∨ x ∈ l2 := by
  intro n
  induction n with
  | zero =>
    intro l1 l2 hn _ _
    have h1 : l1 = [] := List.length_eq_zero.mp (by omega)
    have h2 : l2 = [] := List.length_eq_zero.mp (by omega)
    subst h1; subst h2
    simp [mergeLoop]
  | succ n ih =>
    intro l1 l2 hn h1 h2
    match l1, l2 with
    | [], [] => simp [mergeLoop]
    | [], v2 :: r2 =>
      have hr2 : r2.Pairwise (· < ·) := (List.pairwise_cons.mp h2).2
      have hv2 : ∀ z ∈ r2, v2 < z := (List.pairwise_cons.mp h2).1
      have hrec := ih [] r2 (by simp only [List.length_cons] at hn ⊢; omega)
        (List.Pairwise.nil) hr2
      rw [mergeLoop]
      constructor
      · refine List.pairwise_cons.mpr ⟨fun y hy => ?_, hrec.1⟩
        rcases (hrec.2 y).mp hy with hy | hy
        · simp at hy
        · exact hv2 _ hy
      · intro x
        simp only [List.mem_cons, hrec.2 x, List.not_mem_nil, false_or]
    | v1 :: r1, [] =>
      have hr1 : r1.Pairwise (· < ·) := (List.pairwise_cons.mp h1).2
      have hv1 : ∀ z ∈ r1, v1 < z := (List.pairwise_cons.mp h1).1
      have hrec := ih r1 [] (by simp only [List.length_cons] at hn ⊢; omega)
        hr1 (List.Pairwise.nil)
      rw [mergeLoop]
      constructor
      · refine List.pairwise_cons.mpr ⟨fun y hy => ?_, hrec.1⟩
        rcases (hrec.2 y).mp hy with hy | hy
        · exact hv1 _ hy
        · simp at hy
      · intro x
        simp only [List.mem_cons, hrec.2 x, List.not_mem_nil, or_false]
    | v1 :: r1, v2 :: r2 =>
      have hr1 : r1.Pairwise (· < ·) := (List.pairwise_cons.mp h1).2
      have hr2 : r2.Pairwise (· < ·) := (List.pairwise_cons.mp h2).2
      have hv1 : ∀ z ∈ r1, v1 < z := (List.pairwise_cons.mp h1).1
      have hv2 : ∀ z ∈ r2, v2 < z := (List.pairwise_cons.mp h2).1
      by_cases hlt : v1 < v2
      · have hrec := ih r1 (v2 :: r2)
          (by simp only [List.length_cons] at hn ⊢; omega) hr1 h2
        rw [mergeLoop]
        simp only [hlt, if_true]
        constructor
        · refine List.pairwise_cons.mpr ⟨fun y hy => ?_, hrec.1⟩
          rcases (hrec.2 y).mp hy with hy | hy
          · exact hv1 _ hy
          · rcases List.mem_cons.mp hy with rfl | hy
            · exact hlt
            · exact Nat.lt_trans hlt (hv2 _ hy)
        · intro x
          simp only [List.mem_cons, hrec.2 x, List.mem_cons]
          tauto
      · by_cases hgt : v2 < v1
        · have hrec := ih (v1 :: r1) r2
            (by simp only [List.length_cons] at hn ⊢; omega) h1 hr2
          rw [mergeLoop]
          simp only [hlt, hgt, if_true, if_false]
          constructor
          · refine List.pairwise_cons.mpr ⟨fun y hy => ?_, hrec.1⟩
            rcases (hrec.2 y).mp hy with hy | hy
            · rcases List.mem_cons.mp hy with rfl | hy
              · exact hgt
              · exact Nat.lt_trans hgt (hv1 _ hy)
            · exact hv2 _ hy
          · intro x
            simp only [List.mem_cons, hrec.2 x, List.mem_cons]
            tauto
        · have heq : v1 = v2 := by omega
          subst heq
          have hrec := ih r1 r2
            (by simp only [List.length_cons] at hn ⊢; omega) hr1 hr2
          rw [mergeLoop]
          simp only [hlt, hgt, if_false]
          constructor
          · refine List.pairwise_cons.mpr ⟨fun y hy => ?_, hrec.1⟩
            rcases (hrec.2 y).mp hy with hy | hy
            · exact hv1 _ hy
            · exact hv2 _ hy
          · intro x
            simp only [List.mem_cons, hrec.2 x]
            tauto

/-- C4: for every two iterators producing strictly ascending ID sequences
`l1` and `l2`, `ExpandIterator(Merge(i1, i2))` returns the sorted union of
the two underlying ID sets with each common ID emitted exactly once: the
output is strictly ascending (hence duplicate-free) and contains exactly the
IDs found in either input; equal heads are emitted once with both sides
advanced, and once one side is exhausted the other is drained. -/
theorem merge_expand_is_union (l1 l2 : List Nat)
    (h1 : l1.Pairwise (· < ·)) (h2 : l2.Pairwise (· < ·)) :
    (expandMerge l1 l2).Pairwise (· < ·) ∧ (expandMerge l1 l2).Nodup ∧
      ∀ x, x ∈ expandMerge l1 l2 ↔ x ∈ l1 ∨ x ∈ l2 := by
  unfold expandMerge
  rw [dropWhile_lt_zero, dropWhile_lt_zero]
  have h := mergeLoop_sound (l1.length + l2.length) l1 l2 (Nat.le_refl _) h1 h2
  exact ⟨h.1, h.1.imp Nat.ne_of_lt, h.2⟩

/-- Witness for C4 at the spec's concrete scenario 3:
`k1 = [1,2,3,5,8,13]`, `k2 = [2,3,5,7,11,13]`. -/
theorem merge_expand_is_union_witness :
    ([1, 2, 3, 5, 8, 13] : List Nat).Pairwise (· < ·) ∧
    ([2, 3, 5, 7, 11, 13] : List Nat).Pairwise (· < ·) ∧
    ((expandMerge [1, 2, 3, 5, 8, 13] [2, 3, 5, 7, 11, 13]).Pairwise (· < ·) ∧
      (expandMerge [1, 2, 3, 5, 8, 13] [2, 3, 5, 7, 11, 13]).Nodup ∧
      ∀ x, x ∈ expandMerge [1, 2, 3, 5, 8, 13] [2, 3, 5, 7, 11, 13] ↔
        x ∈ ([1, 2, 3, 5, 8, 13] : List Nat) ∨ x ∈ ([2, 3, 5, 7, 11, 13] : List Nat)) :=
  ⟨by decide, by decide, merge_expand_is_union _ _ (by decide) (by decide)⟩

/-! ## Variadic `Merge` and `Intersect` constructors -/

/-- A Go `Iterator` interface value, as built by the combinator
constructors: a leaf iterator or a binary `mergeIterator` /
`intersectIterator` node. -/
inductive ItTree
  | plain (l : List Nat)
  | merge (t1 t2 : ItTree)
  | inter (t1 t2 : ItTree)
deriving DecidableEq

/-- `Merge(its...)` (`src/unnamed/part_000`, lines 75–85): for the empty
argument list the Go function returns `nil` (modelled `none`); otherwise it
folds the remaining iterators into a left-nested tree of `mergeIterator`
nodes over the first one. -/
def Merge (its : List ItTree) : Option ItTree :=
  match its with
  | [] => none
  | i1 :: rest => some (rest.foldl ItTree.merge i1)

/-- `Intersect(its...)` (`src/unnamed/part_000`, lines 115–125): same shape
as `Merge`, with `intersectIterator` nodes. -/
def Intersect (its : List ItTree) : Option ItTree :=
  match its with
  | [] => none
  | i1 :: rest => some (rest.foldl ItTree.inter i1)

/-- Outcome of invoking a method (`Next`, `Seek`, `Close`) on a Go
`Iterator` interface value: calling through a `nil` interface value panics
with a nil dereference; on a non-nil value the call delegates to the
iterator. -/
inductive CallOutcome
  | nilPanic
  | delegates
deriving DecidableEq

/-- Method dispatch on the value returned by `Merge` / `Intersect`. -/
def callOn (o : Option ItTree) : CallOutcome :=
  match o with
  | none => .nilPanic
  | some _ => .delegates

/-- C10: called with zero iterators, both `Merge` and `Intersect` return
`nil` rather than an immediately-EOF iterator, so any subsequent `Next`,
`Seek` or `Close` on the result dereferences a nil `Iterator` (panics);
with at least one argument a real iterator is returned. -/
theorem merge_intersect_empty_nil :
    Merge [] = none ∧ Intersect [] = none ∧
    callOn (Merge []) = CallOutcome.nilPanic ∧
    callOn (Intersect []) = CallOutcome.nilPanic ∧
    ∀ i rest, (Merge (i :: rest)).isSome ∧ (Intersect (i :: rest)).isSome := by
  refine ⟨rfl, rfl, rfl, rfl, fun i rest => ⟨rfl, rfl⟩⟩

/-! ## `plainSkiplistIterator` (`src/unnamed/part_000`, lines 283–329)

`newPlainSkiplistIterator` collects the keys of an in-memory
`map[uint64]uint64` and sorts them; `seek` binary-searches the sorted key
list.  Go slice indexing out of range is a runtime panic, modelled by a
dedicated outcome. -/

/-- Outcome of `plainSkiplistIterator.seek`: a runtime panic (out-of-range
slice index), the `io.EOF` return, or a `(val, ptr)` pair. -/
inductive SeekOutcome
  | panicked
  | eofReached
  | found (val ptr : Nat)
deriving DecidableEq

/-- Go `sort.Search(len(keys), func(i) { return keys[i] >= id })` on the
sorted key list: index of the first key `≥ id`, or `len(keys)` when every
key is `< id` (`List.findIdx` returns the length when no element
matches). -/
def goSearchGe (keys : List Nat) (id : Nat) : Nat :=
  keys.findIdx (fun k => decide (id ≤ k))

/-- `plainSkiplistIterator.next` (lines 322–329): EOF past the end,
otherwise the key at `pos` and its mapped pointer. -/
def plainSkiplistNext (keys : List Nat) (m : Nat → Nat) (pos : Nat) : SeekOutcome :=
  if keys.length ≤ pos then .eofReached
  else .found (keys.getD pos 0) (m (keys.getD pos 0))

/-- `plainSkiplistIterator.seek` (lines 309–319):
`pos := sort.Search(...)`; then `if pos > 0 && it.keys[pos] > id` steps back
one entry, else stays; finally delegates to `next`.  The conjunction is
evaluated left to right: whenever `pos > 0` holds, `it.keys[pos]` is
evaluated, which panics if `pos = len(keys)` (`List.get?` returning `none`
models the out-of-range index). -/
def plainSkiplistSeek (keys : List Nat) (m : Nat → Nat) (id : Nat) : SeekOutcome :=
  let pos := goSearchGe keys id
  if 0 < pos then
    match keys.get? pos with
    | none => .panicked
    | some k =>
      if id < k then plainSkiplistNext keys m (pos - 1)
      else plainSkiplistNext keys m pos
  else plainSkiplistNext keys m pos

/-- The Go map `{5: 10}`. -/
def mapFiveTen : Nat → Nat := fun k => if k = 5 then 10 else 0

/-- C9 (refuting the claim as stated): on the non-empty map `{5 ↦ 10}` and
target `6` — strictly greater than every key — `sort.Search` returns
`pos = 1 = len(keys)` and the guard `pos > 0 && keys[pos] > id` evaluates
`keys[1]` on the one-element key slice: index out of range, a runtime
panic, not a total in-bounds seek. -/
theorem plainSkiplistSeek_panics :
    plainSkiplistSeek [5] mapFiveTen 6 = SeekOutcome.panicked := rfl

/-! ## Bolt skiplist cursor (`src/postings.go`, lines 286–336)

A per-key skiplist bucket holds `encodeUint64(last_id) → encodeUint64
(page_id)` entries.  Bolt keeps bucket entries sorted by byte-wise key
order, and 8-byte big-endian encoding makes that numeric order, so the
bucket is modelled as a list of `(key, value)` pairs strictly ascending in
the key.  `Cursor.Last()` is then the final list entry. -/

/-- Errors surfaced by the postings subsystem. -/
inductive GoErr
  | eofErr
  | outOfOrder
  | pageFull
  | notFound
  | labelMissing
deriving DecidableEq

/-- Bolt `Bucket.Put` on the sorted-entry model: insert in key order,
replacing an existing entry with an equal key. -/
def bktPut : List (Nat × Nat) → Nat → Nat → List (Nat × Nat)
  | [], k, v => [(k, v)]
  | (k', v') :: rest, k, v =>
    if k < k' then (k, v) :: (k', v') :: rest
    else if k = k' then (k, v) :: rest
    else (k', v') :: bktPut rest k v

/-- `boltSkiplistCursor.append(d, p)` (`src/postings.go`, lines 328–336):
read the greatest entry with `Cursor.Last()`; if it exists and its key is
`≥ d`, fail with `errOutOfOrder` (leaving the bucket untouched); otherwise
`Put(encodeUint64(d), encodeUint64(p))`. -/
def slAppend (b : List (Nat × Nat)) (d p : Nat) : Except GoErr (List (Nat × Nat)) :=
  match b.getLast? with
  | some e => if d ≤ e.1 then .error .outOfOrder else .ok (bktPut b d p)
  | none => .ok (bktPut b d p)

theorem getLast?_is_max {b : List (Nat × Nat)} {l : Nat × Nat}
    (hb : b.Pairwise (fun e f => e.1 < f.1)) (hl : b.getLast? = some l) :
    ∀ e ∈ b, e.1 ≤ l.1 := by
  induction b with
  | nil => simp at hl
  | cons x xs ih =>
    have hx : ∀ z ∈ xs, x.1 < z.1 := (List.pairwise_cons.mp hb).1
    have hxs : xs.Pairwise (fun e f => e.1 < f.1) := (List.pairwise_cons.mp hb).2
    cases xs with
    | nil =>
      simp only [List.getLast?_singleton, Option.some.injEq] at hl
      subst hl
      intro e he
      rcases List.mem_singleton.mp he with rfl
      exact Nat.le_refl _
    | cons y ys =>
      have hl' : (y :: ys).getLast? = some l := by
        rw [← hl]
        exact List.getLast?_cons_cons.symm
      intro e he
      rcases List.mem_cons.mp he with rfl | he
      · have hyl : y.1 ≤ l.1 := ih hxs hl' y (List.mem_cons_self y ys)
        exact Nat.le_trans (Nat.le_of_lt (hx y (List.mem_cons_self y ys))) hyl
      · exact ih hxs hl' e he

theorem bktPut_append {b : List (Nat × Nat)} {d p : Nat}
    (hd : ∀ e ∈ b, e.1 < d) : bktPut b d p = b ++ [(d, p)] := by
  induction b with
  | nil => rfl
  | cons x xs ih =>
    have hx : x.1 < d := hd x (List.mem_cons_self x xs)
    have : bktPut (x :: xs) d p = x :: bktPut xs d p := by
      obtain ⟨k', v'⟩ := x
      simp only [bktPut]
      rw [if_neg (by omega), if_neg (by omega)]
    rw [this, ih (fun e he => hd e (List.mem_cons_of_mem x he))]
    rfl

/-- C7: for every sorted skiplist bucket and every `(last_id, page_id)`
pair, the cursor's `append(d, p)` fails with `OutOfOrder` exactly when some
existing entry has a key `≥ d` (the code inspects only `Cursor.Last()`,
i.e. the greatest key, which suffices on the big-endian-ordered bucket),
leaving the bucket unchanged; otherwise it succeeds and inserts the entry
`(d, p)` after all existing entries. -/
theorem skiplist_append_out_of_order (b : List (Nat × Nat)) (d p : Nat)
    (hb : b.Pairwise (fun e f => e.1 < f.1)) :
    (slAppend b d p = .error .outOfOrder ↔ ∃ e ∈ b, d ≤ e.1) ∧
      ((∀ e ∈ b, e.1 < d) → slAppend b d p = .ok (b ++ [(d, p)])) := by
  constructor
  · cases hl : b.getLast? with
    | none =>
      have hbnil : b = [] := List.getLast?_eq_none_iff.mp hl
      subst hbnil
      simp [slAppend]
    | some l =>
      have hlmem : l ∈ b := List.mem_of_mem_getLast? hl
      simp only [slAppend, hl]
      by_cases hdl : d ≤ l.1
      · simp only [if_pos hdl]
        exact ⟨fun _ => ⟨l, hlmem, hdl⟩, fun _ => trivial⟩
      · simp only [if_neg hdl]
        constructor
        · intro h
          exact absurd h (by simp)
        · rintro ⟨e, he, hde⟩
          exact absurd (Nat.le_trans hde (getLast?_is_max hb hl e he)) hdl
  · intro hd
    have hput := bktPut_append (b := b) (d := d) (p := p) hd
    cases hl : b.getLast? with
    | none => simp [slAppend, hl, hput]
    | some l =>
      have hlmem : l ∈ b := List.mem_of_mem_getLast? hl
      have : ¬ d ≤ l.1 := Nat.not_le_of_lt (hd l hlmem)
      simp [slAppend, hl, this, hput]

/-- Witness for C7: bucket `[(3, 1)]`, appending `(4, 2)` succeeds and
appending `(3, 5)` is out of order. -/
theorem skiplist_append_out_of_order_witness :
    ([(3, 1)] : List (Nat × Nat)).Pairwise (fun e f => e.1 < f.1) ∧
    ((slAppend [(3, 1)] 4 2 = .error .outOfOrder ↔
        ∃ e ∈ ([(3, 1)] : List (Nat × Nat)), 4 ≤ e.1) ∧
      ((∀ e ∈ ([(3, 1)] : List (Nat × Nat)), e.1 < 4) →
        slAppend [(3, 1)] 4 2 = .ok ([(3, 1)] ++ [(4, 2)]))) :=
  ⟨by decide, skiplist_append_out_of_order [(3, 1)] 4 2 (by decide)⟩

/-! ## Varints and the page codec

`binary.PutUvarint` / LEB128, used as KV values and, per spec §4.1, for the
deltas inside a page. -/

/-- LEB128 worker; the fuel only bounds the recursion (`x / 128` strictly
shrinks), `putUvarint` passes enough for any input. -/
def putUvarintAux : Nat → Nat → List Nat
  | 0, x => [x % 128]
  | fuel + 1, x => if x < 128 then [x] else (x % 128 + 128) :: putUvarintAux fuel (x / 128)

/-- `binary.PutUvarint`: the LEB128 bytes of `x` (low 7 bits first, high bit
set on every byte but the last). -/
def putUvarint (x : Nat) : List Nat :=
  putUvarintAux x x

/-- Total byte size of the varint deltas of the IDs in `rest`, each taken
against its predecessor (`prev` before the first). -/
def deltaSizes : Nat → List Nat → Nat
  | _, [] => 0
  | prev, x :: xs => (putUvarint (x - prev)).length + deltaSizes x xs

/-- Modelled from the spec: the delta page codec of §4.1 — its Go file
(`newPageDelta`, `page`, `pageCursor`, `pageSize`, `errPageFull`) is not
among the sources, only its callers are.  A page of `cap` usable bytes
stores its first ID in the first 8 bytes and every further ID as the LEB128
varint of its delta from the previous ID; `ids` is the decoded content. -/
structure PageM where
  cap : Nat
  ids : List Nat
deriving DecidableEq

/-- Bytes of the page holding encoded IDs: 8 for the first ID plus the
varint deltas (0 for a page never initialised). -/
def pageBytesUsed (p : PageM) : Nat :=
  match p.ids with
  | [] => 0
  | first :: rest => 8 + deltaSizes first rest

/-- Modelled from the spec: `page.init(first_id)` — a fresh zeroed buffer of
`cap` bytes initialised with the single starting ID. -/
def pageInit (cap id : Nat) : PageM :=
  { cap := cap, ids := [id] }

/-- Modelled from the spec: `pageCursor.append(id)` of §4.1 — `OutOfOrder`
when `id` is not strictly greater than the last ID, `PageFull` exactly when
the varint of the delta would not fit in the remaining bytes, and on
success the ID is appended (a full page is left unchanged). -/
def pageAppend (p : PageM) (id : Nat) : Except GoErr PageM :=
  match p.ids.getLast? with
  | none => .error .notFound
  | some last =>
    if id ≤ last then .error .outOfOrder
    else if p.cap < pageBytesUsed p + (putUvarint (id - last)).length then
      .error .pageFull
    else .ok { p with ids := p.ids ++ [id] }

/-! ## The pagebuf blob store (external contract, spec §6)

`Add(bytes) → page_id`, `Get(page_id) → bytes`, `Set(page_id, bytes)`.
Page IDs are allocated from 1 — the code in `postingsAppend` uses `pid = 0`
as the marker for a page not yet persisted, so the blob store never hands
out 0. -/

structure Blob where
  pages : List (Nat × PageM)
  nextID : Nat
deriving DecidableEq

/-- `pagebuf.Tx.Add`: persist a new page under a fresh ID. -/
def Blob.add (b : Blob) (pg : PageM) : Nat × Blob :=
  (b.nextID, ⟨b.pages ++ [(b.nextID, pg)], b.nextID + 1⟩)

/-- `pagebuf.Tx.Set`: overwrite the page stored under `pid`. -/
def Blob.set (b : Blob) (pid : Nat) (pg : PageM) : Blob :=
  ⟨b.pages.map (fun e => if e.1 = pid then (pid, pg) else e), b.nextID⟩

/-- `pagebuf.Tx.Get`. -/
def Blob.get (b : Blob) (pid : Nat) : Option PageM :=
  (b.pages.find? (fun e => decide (e.1 = pid))).map (·.2)

/-- The empty blob store. -/
def blob0 : Blob := ⟨[], 1⟩

/-! ## `boltSkiplistCursor.seek` and `postingsAppend` (`src/postings.go`) -/

/-- `boltSkiplistCursor.seek(k)` (`src/postings.go`, lines 302–326):
`Cursor.Seek` positions at the first entry with key `≥ k` (`find?` on the
key-sorted bucket); when there is none, `Cursor.Last()`; an empty bucket is
`io.EOF`.  If the entry found is past `k`, step to the previous entry when
one exists (the last entry with a smaller key); if the cursor stepped
before the first entry it is reset with `First()` and the already-read
entry is returned. -/
def slSeek (b : List (Nat × Nat)) (k : Nat) : Except GoErr (Nat × Nat) :=
  let posEntry :=
    match b.find? (fun e => decide (k ≤ e.1)) with
    | some e => some e
    | none => b.getLast?
  match posEntry with
  | none => .error .eofErr
  | some e =>
    if k < e.1 then
      match (b.takeWhile (fun f => decide (f.1 < e.1))).getLast? with
      | some e' => .ok e'
      | none => .ok e
    else .ok e

/-- `math.MaxUint64`. -/
def maxU64 : Nat := 2 ^ 64 - 1

/-- The per-ID loop of `postingsStore.postingsAppend` (`src/postings.go`,
lines 223–253).  Arguments mirror the loop state: pending IDs, the current
page `pg`, its blob ID `pid` (0 = freshly created, not yet persisted), the
skiplist bucket, the blob transaction, and `lastID` (the Go local, zero
until the first iteration).  On `errPageFull` the full page is stored away —
`Add` plus a skiplist entry keyed by `ids[i]` when new, else `Set` — and a
new page is initialised with the very ID that failed to fit. -/
def paLoop (cap : Nat) :
    List Nat → PageM → Nat → List (Nat × Nat) → Blob → Nat →
    Except GoErr (PageM × Nat × List (Nat × Nat) × Blob × Nat)
  | [], pg, pid, bkt, blob, lastID => .ok (pg, pid, bkt, blob, lastID)
  | id :: rest, pg, pid, bkt, blob, _ =>
    match pageAppend pg id with
    | .ok pg' => paLoop cap rest pg' pid bkt blob id
    | .error .pageFull =>
      if pid = 0 then
        let added := blob.add pg
        match slAppend bkt id added.1 with
        | .error e => .error e
        | .ok bkt' => paLoop cap rest (pageInit cap id) 0 bkt' added.2 id
      else
        paLoop cap rest (pageInit cap id) 0 bkt (blob.set pid pg) id
    | .error e => .error e

/-- `postingsStore.postingsAppend(bufs, skiplist, pbtx, key, ids...)`
(`src/postings.go`, lines 167–271), for one key's bucket: seek the most
recent page via `seek(MaxUint64)`; on `io.EOF` create a fresh page with
`ids[0]` (marker `pid = 0`) and continue with the remaining IDs, otherwise
load a private copy of the tail page and feed every ID to the loop; finally
persist the tail page — `Add` plus a skiplist entry keyed by the Go local
`lastID` when the page is new, else `Set`.  `cap` is
`pageSize - pagebuf.PageHeaderSize`, the usable bytes of a page. -/
def postingsAppend (cap : Nat) (bkt : List (Nat × Nat)) (blob : Blob)
    (ids : List Nat) : Except GoErr (List (Nat × Nat) × Blob) :=
  match ids with
  | [] => .ok (bkt, blob)
  | first :: rest =>
    let afterSeek : Except GoErr (PageM × Nat × List Nat) :=
      match slSeek bkt maxU64 with
      | .error .eofErr => .ok (pageInit cap first, 0, rest)
      | .error e => .error e
      | .ok dp =>
        match blob.get dp.2 with
        | none => .error .notFound
        | some pdata => .ok (pdata, dp.2, first :: rest)
    match afterSeek with
    | .error e => .error e
    | .ok (pg, pid, loopIds) =>
      match paLoop cap loopIds pg pid bkt blob 0 with
      | .error e => .error e
      | .ok (pg', pid', bkt', blob', lastID) =>
        if pid' = 0 then
          let added := blob'.add pg'
          match slAppend bkt' lastID added.1 with
          | .error e => .error e
          | .ok bkt'' => .ok (bkt'', added.2)
        else .ok (bkt', blob'.set pid' pg')

/-- C5 (refuting the claim as stated): on a fresh key with usable page
capacity 9 bytes (8 for the first ID, 1 spare delta byte), appending
`[1, 2, 3, 4]` succeeds and leaves the skiplist bucket `[(3, 1), (4, 2)]`
with page 1 holding the IDs `[1, 2]`: the entry inserted at the page-full
rollover (`sl.append(ids[i], pid)` at line 235) is keyed by `3` — the ID
that failed to fit and went into the *next* page — while the maximum ID
stored in the page it references is `2`. -/
theorem postingsAppend_entry_key_exceeds_page_max :
    postingsAppend 9 [] blob0 [1, 2, 3, 4] =
      .ok ([(3, 1), (4, 2)], ⟨[(1, ⟨9, [1, 2]⟩), (2, ⟨9, [3, 4]⟩)], 3⟩) ∧
    (Blob.get ⟨[(1, ⟨9, [1, 2]⟩), (2, ⟨9, [3, 4]⟩)], 3⟩ 1 = some ⟨9, [1, 2]⟩ ∧
      (PageM.mk 9 [1, 2]).ids.getLast? = some 2 ∧ (2 : Nat) ≠ 3) := by
  exact ⟨rfl, rfl, rfl, by decide⟩

/-! ## `postingsStore.Append`, `Iter` transactions and `Close` -/

/-- Events observable at the two storage transactions during
`postingsStore.Append`. -/
inductive Ev
  | beginBlob
  | beginKV
  | commitKV
  | commitBlob
  | rollbackKV
  | rollbackBlob
deriving DecidableEq

/-- The mutable state owned by `postingsStore`: the per-key skiplist buckets
(the `skiplist` Bolt bucket with one sub-bucket per key) and the pagebuf
blob store. -/
structure PStore where
  skiplists : List (Nat × List (Nat × Nat))
  blob : Blob
deriving DecidableEq

/-- Sub-bucket for key `k` (empty when `CreateBucketIfNotExists` makes a
fresh one). -/
def getBucket (s : List (Nat × List (Nat × Nat))) (k : Nat) : List (Nat × Nat) :=
  ((s.find? (fun e => decide (e.1 = k))).map (·.2)).getD []

/-- Store bucket `k` back. -/
def putBucket (s : List (Nat × List (Nat × Nat))) (k : Nat)
    (b : List (Nat × Nat)) : List (Nat × List (Nat × Nat)) :=
  if (s.find? (fun e => decide (e.1 = k))).isSome then
    s.map (fun e => if e.1 = k then (k, b) else e)
  else s ++ [(k, b)]

/-- The body of the `db.Update` closure in `Append` (`src/postings.go`,
lines 141–153): apply `postingsAppend` for every batch in turn. -/
def applyBatches (cap : Nat) : List (Nat × List Nat) → PStore → Except GoErr PStore
  | [], st => .ok st
  | (k, ids) :: rest, st =>
    match postingsAppend cap (getBucket st.skiplists k) st.blob ids with
    | .error e => .error e
    | .ok (bkt', blob') => applyBatches cap rest ⟨putBucket st.skiplists k bkt', blob'⟩

/-- `postingsStore.Append(batches)` (`src/postings.go`, lines 130–162) with
its transaction events.  The pagebuf transaction is begun first
(`p.pb.Begin(true)`); `db.Update` then begins the Bolt (KV) write
transaction, runs the closure and — when it returns nil — **commits the KV
transaction before returning**; only afterwards does `Append` call
`pbtx.Commit()` on the blob store.  When the closure errors, `db.Update`
rolls the KV transaction back and `Append` rolls back the blob
transaction. -/
def storeAppend (cap : Nat) (st : PStore) (batches : List (Nat × List Nat)) :
    Except GoErr PStore × List Ev :=
  match applyBatches cap batches st with
  | .ok st' => (.ok st', [.beginBlob, .beginKV, .commitKV, .commitBlob])
  | .error e => (.error e, [.beginBlob, .beginKV, .rollbackKV, .rollbackBlob])

/-- The empty postings store. -/
def pstore0 : PStore := ⟨[], blob0⟩

/-- C6 (refuting the claim as stated): a successful `Append` — here one
batch `{7 ↦ [1, 2]}` on the empty store — commits the KV store (inside
`db.Update`) strictly before the blob store commit, the reverse of the
claimed order; a blob-commit failure at that point could no longer roll the
KV commit back.  The failure path does roll back both. -/
theorem storeAppend_commits_kv_before_blob :
    (storeAppend 9 pstore0 [(7, [1, 2])]).2 =
      [Ev.beginBlob, Ev.beginKV, Ev.commitKV, Ev.commitBlob] ∧
    (storeAppend 9 pstore0 [(7, [1, 2])]).2.indexOf Ev.commitKV <
      (storeAppend 9 pstore0 [(7, [1, 2])]).2.indexOf Ev.commitBlob ∧
    (storeAppend 9 pstore0 [(7, [1, 2])]).1.isOk = true := by
  exact ⟨by decide, by decide, by decide⟩

/-- The two persistence handles owned by `postingsStore` (`db`, the Bolt KV
store, and `pb`, the pagebuf blob store). -/
structure PostingsHandles where
  dbOpen : Bool
  pbOpen : Bool
deriving DecidableEq

/-- `postingsStore.Close` (`src/postings.go`, lines 75–77): the body is
`return p.db.Close()` — only the KV handle is closed. -/
def postingsClose (h : PostingsHandles) : PostingsHandles :=
  { h with dbOpen := false }

/-- C8 (refuting the claim as stated): `Close()` on an open store closes
the KV store but leaves the pagebuf blob store handle open — the code never
calls `p.pb.Close()`. -/
theorem postingsClose_leaves_blob_open :
    postingsClose ⟨true, true⟩ = ⟨false, true⟩ ∧
    (postingsClose ⟨true, true⟩).pbOpen = true := by
  exact ⟨rfl, rfl⟩

/-! ## Label / series dictionary (`src/bolt.go`, lines 223–408)

Strings and byte slices are byte lists (`List Nat`, each element `< 256`).
The four dictionary buckets are association lists of byte-string keys to
byte-string values; each Bolt bucket also carries its `NextSequence`
counter (Bolt increments then returns, so the first ID handed out is 1). -/

/-- A Bolt bucket of the series store. -/
structure DBucket where
  entries : List (List Nat × List Nat)
  seq : Nat
deriving DecidableEq

/-- `Bucket.Get`. -/
def DBucket.get (b : DBucket) (k : List Nat) : Option (List Nat) :=
  (b.entries.find? (fun e => decide (e.1 = k))).map (·.2)

/-- `Bucket.Put`: overwrite an existing key or add a new entry. -/
def DBucket.put (b : DBucket) (k v : List Nat) : DBucket :=
  if (b.entries.find? (fun e => decide (e.1 = k))).isSome then
    ⟨b.entries.map (fun e => if e.1 = k then (k, v) else e), b.seq⟩
  else ⟨b.entries ++ [(k, v)], b.seq⟩

/-- `Bucket.NextSequence`: increment, then hand out the new value. -/
def DBucket.nextSequence (b : DBucket) : Nat × DBucket :=
  (b.seq + 1, ⟨b.entries, b.seq + 1⟩)

/-- A fresh bucket. -/
def dbucket0 : DBucket := ⟨[], 0⟩

/-- `boltSeriesTx` (`src/bolt.go`, lines 277–283): the four dictionary
buckets.  `seriesToID` is created by `newBoltSeriesStore` but — notably —
never read or written by `ensureSeries`. -/
structure SeriesTx where
  labelToID : DBucket
  idToLabel : DBucket
  seriesToID : DBucket
  idToSeries : DBucket
deriving DecidableEq

/-- A transaction on a fresh series store. -/
def stx0 : SeriesTx := ⟨dbucket0, dbucket0, dbucket0, dbucket0⟩

/-- LEB128 decoding worker for `binary.Uvarint` / `binary.ReadUvarint`:
`none` on an empty or truncated buffer. -/
def uvarintAux : List Nat → Nat → Nat → Option (Nat × List Nat)
  | [], _, _ => none
  | b :: rest, shift, acc =>
    if b < 128 then some (acc + b * 2 ^ shift, rest)
    else uvarintAux rest (shift + 7) (acc + (b - 128) * 2 ^ shift)

/-- `readUvarint` / `binary.ReadUvarint`: the first LEB128 value of the
buffer and the remaining bytes. -/
def readUvarint (l : List Nat) : Option (Nat × List Nat) :=
  uvarintAux l 0 0

/-- `binary.Uvarint` used only for its value (Go returns 0 on error). -/
def uvarintFst (l : List Nat) : Nat :=
  ((readUvarint l).map (·.1)).getD 0

/-- Modelled from the spec: the `seperator` byte — declared in a source
file absent from the repository; §4.6 says a byte outside the legal label
alphabet and that "the source uses `0x00` or similar". -/
def seperator : Nat := 0

/-- The key bytes built by `ensureLabel` (`src/bolt.go`, lines 368–372):
`k := make([]byte, len(key)+len(val)+1)` (zero-filled), then
`copy(k[:len(key)], []byte(val))` — the *value* is copied into the first
`len(key)` bytes (truncated or zero-padded to that length) — then
`k[len(key)] = seperator`, then `copy(k[len(key)+1:], []byte(val))`. -/
def labelKeyBytes (key val : List Nat) : List Nat :=
  (val.take key.length ++ List.replicate (key.length - val.length) 0) ++
    seperator :: val

/-- `boltSeriesTx.ensureLabel(key, val)` (`src/bolt.go`, lines 367–394):
look the key bytes up in `labelToID`; on a hit decode the stored varint; on
a miss allocate `IDToLabel.NextSequence()`, store the varint ID under the
key bytes in `labelToID` and the key bytes under the varint ID in
`IDToLabel`. -/
def ensureLabel (s : SeriesTx) (key val : List Nat) : Nat × SeriesTx :=
  let k := labelKeyBytes key val
  match s.labelToID.get k with
  | some v => (uvarintFst v, s)
  | none =>
    let idb := s.idToLabel.nextSequence
    let s1 : SeriesTx :=
      { s with
        idToLabel := (idb.2).put (putUvarint idb.1) k
        labelToID := s.labelToID.put k (putUvarint idb.1) }
    (idb.1, s1)

/-- `bytes.Split(l, []byte{seperator})`: the chunks of `l` between
separator bytes. -/
def splitSepAux : List Nat → List Nat → List (List Nat)
  | [], cur => [cur.reverse]
  | b :: rest, cur =>
    if b = seperator then cur.reverse :: splitSepAux rest []
    else splitSepAux rest (b :: cur)

/-- `bytes.Split` on the separator. -/
def splitSep (l : List Nat) : List (List Nat) :=
  splitSepAux l []

/-- `boltSeriesTx.label(id)` (`src/bolt.go`, lines 353–363): fetch
`IDToLabel[varint(id)]` (error when absent), split at separator bytes and
return parts 0 and 1 (a stored value without separator would make `p[1]`
panic; `labelMissing` doubles for that unreachable branch). -/
def labelOf (s : SeriesTx) (id : Nat) : Except GoErr (List Nat × List Nat) :=
  match s.idToLabel.get (putUvarint id) with
  | none => .error .labelMissing
  | some lbl =>
    match splitSep lbl with
    | p0 :: p1 :: _ => .ok (p0, p1)
    | _ => .error .labelMissing

/-- Modelled from the spec: `encode_u64` of §6 — 8-byte big-endian. -/
def encodeUint64 (x : Nat) : List Nat :=
  [x / 2 ^ 56 % 256, x / 2 ^ 48 % 256, x / 2 ^ 40 % 256, x / 2 ^ 32 % 256,
    x / 2 ^ 24 % 256, x / 2 ^ 16 % 256, x / 2 ^ 8 % 256, x % 256]

/-- Modelled from the spec: `seriesKey.bytes()` — the `seriesKey` type
lives in a source file absent from the repository; §4.6 defines the
canonical series key bytes as the "concatenation of the big-endian 8-byte
`label_id`s sorted ascending". -/
def seriesKeyBytes (ids : List Nat) : List Nat :=
  (ids.map encodeUint64).flatten

/-- Ascending insertion, for `sort.Sort(skey)`. -/
def insertAsc (x : Nat) : List Nat → List Nat
  | [] => [x]
  | y :: ys => if x ≤ y then x :: y :: ys else y :: insertAsc x ys

/-- `sort.Sort` on a `seriesKey`: ascending sort of the label IDs. -/
def sortAsc (l : List Nat) : List Nat :=
  l.foldr insertAsc []

/-- The `for k, v := range desc` loop of `ensureSeries`: ensure every label
and collect the label IDs (the list order stands for one Go map iteration
order). -/
def ensureAll : SeriesTx → List (List Nat × List Nat) → List Nat × SeriesTx
  | s, [] => ([], s)
  | s, (k, v) :: rest =>
    let r := ensureLabel s k v
    let rr := ensureAll r.2 rest
    (r.1 :: rr.1, rr.2)

/-- `boltSeriesTx.ensureSeries(desc)` (`src/bolt.go`, lines 317–350):
ensure all labels; sort the label IDs into the canonical series key; then
check `s.IDToSeries.Get(skey.bytes())` — the reverse bucket, whose keys are
`varint(series_id)`, not series-key bytes — returning the decoded value on
a hit; otherwise allocate `IDToSeries.NextSequence()` and store
`varint(sid) → skey.bytes()` in `IDToSeries`. -/
def ensureSeries (s : SeriesTx) (desc : List (List Nat × List Nat)) :
    Nat × SeriesTx :=
  let er := ensureAll s desc
  let skey := sortAsc er.1
  let s1 := er.2
  match s1.idToSeries.get (seriesKeyBytes skey) with
  | some sidb => (uvarintFst sidb, s1)
  | none =>
    let ns := s1.idToSeries.nextSequence
    let s2 : SeriesTx :=
      { s1 with idToSeries := (ns.2).put (putUvarint ns.1) (seriesKeyBytes skey) }
    (ns.1, s2)

/-- The uvarint-reading loop of `series` (`src/bolt.go`, lines 294–302):
decode values until the reader is drained; `none` on a read error.  The
fuel is the buffer length (each read consumes at least one byte). -/
def readAllUvarints : Nat → List Nat → Option (List Nat)
  | _, [] => some []
  | 0, _ :: _ => none
  | fuel + 1, l =>
    match readUvarint l with
    | none => none
    | some vr => (readAllUvarints fuel vr.2).map (vr.1 :: ·)

/-- Go map assignment `m[k] = v`. -/
def mapInsert (m : List (List Nat × List Nat)) (k v : List Nat) :
    List (List Nat × List Nat) :=
  if (m.find? (fun e => decide (e.1 = k))).isSome then
    m.map (fun e => if e.1 = k then (k, v) else e)
  else m ++ [(k, v)]

/-- The label-collecting loop of `series` (`src/bolt.go`, lines 306–312). -/
def seriesLabels (s : SeriesTx) : List Nat → List (List Nat × List Nat) →
    Except GoErr (List (List Nat × List Nat))
  | [], m => .ok m
  | id :: rest, m =>
    match labelOf s id with
    | .error e => .error e
    | .ok kv => seriesLabels s rest (mapInsert m kv.1 kv.2)

/-- `boltSeriesTx.series(sid)` (`src/bolt.go`, lines 286–314): fetch
`IDToSeries[varint(sid)]` (`errNotFound` when absent), decode the stored
bytes as a run of uvarint label IDs, and resolve each through `label`. -/
def seriesOf (s : SeriesTx) (sid : Nat) :
    Except GoErr (List (List Nat × List Nat)) :=
  match s.idToSeries.get (putUvarint sid) with
  | none => .error .notFound
  | some sb =>
    match readAllUvarints sb.length sb with
    | none => .error .labelMissing
    | some ids => seriesLabels s ids []

/-- The label set `{a: b}` (`"a" = [97]`, `"b" = [98]`). -/
def descAB : List (List Nat × List Nat) := [([97], [98])]

/-- C1 (refuting the claim as stated): `ensureSeries({a: b})` on a fresh
store returns series ID 1, and the *same* call on the resulting store
returns 2 — a fresh allocation, not the looked-up first ID.  The lookup
reads `IDToSeries.Get(skey.bytes())`, but `IDToSeries` is keyed by
`varint(series_id)` (and `seriesToID` is never populated), so the stored
series is never found again. -/
theorem ensureSeries_not_idempotent :
    (ensureSeries stx0 descAB).1 = 1 ∧
    (ensureSeries (ensureSeries stx0 descAB).2 descAB).1 = 2 ∧
    (ensureSeries (ensureSeries stx0 descAB).2 descAB).1 ≠
      (ensureSeries stx0 descAB).1 := by
  exact ⟨rfl, rfl, by decide⟩

/-- C2 (refuting the claim as stated): `ensureLabel("a", "b")` builds the
dictionary key `[98, 0, 98]` — the *value* bytes where the claim (and spec
§4.6) put `utf8(key)` — instead of `[97, 0, 98]`; consequently resolving
the series ID returned by `ensureSeries({a: b})` does not yield `{a: b}`:
the stored canonical key bytes decode to label IDs whose first entry (0) is
absent from `IDToLabel`, and the lookup errors instead of returning the
label set. -/
theorem lookup_series_ensure_series_not_roundtrip :
    labelKeyBytes [97] [98] = [98, 0, 98] ∧
    labelKeyBytes [97] [98] ≠ [97] ++ seperator :: [98] ∧
    (ensureSeries stx0 descAB).2.labelToID.get [98, 0, 98] = some [1] ∧
    labelOf (ensureSeries stx0 descAB).2 1 = .ok ([98], [98]) ∧
    seriesOf (ensureSeries stx0 descAB).2 (ensureSeries stx0 descAB).1 =
      .error .labelMissing := by
  exact ⟨rfl, by decide, rfl, rfl, rfl⟩

end Tindex
